import Mathlib

/-!
Verification development for the `logr` log-tailing engine
(`src-tauri/src`: file watcher, Laravel log parser, application state).

Modelling conventions:
* File contents and strings are modelled as `List Char` (`Str`), so byte
  offsets coincide with list indices (the concrete inputs are ASCII).
* `u64`/`usize` become `Nat`; the Rust subtraction on these is modelled by truncated
  `Nat` subtraction (the subtractions below never underflow on reachable
  states).
* Character classes (`\w`, `\s`, `char::is_whitespace`, `to_lowercase`)
  are modelled on their ASCII fragment, which covers every input considered.
* Filesystem and clock effects are passed in explicitly: the file seen by a
  modification handler is an argument, and the wall-clock millisecond value
  used by `LogEntry::from_raw` for its id is an explicit `now : Nat`.
-/

/-- Strings are modelled as lists of characters. -/
abbrev Str := List Char

/-- Whitespace characters: the ASCII fragment of the Rust `char::is_whitespace` predicate
and of the regex class `\s` (space, tab, newline, carriage return, vertical
tab, form feed). -/
def isWs (c : Char) : Bool :=
  c = ' ' || c = '\t' || c = '\n' || c = '\r' || c = '\x0b' || c = '\x0c'

/-- ASCII decimal digit, the regex class `\d`. -/
def isDigitC (c : Char) : Bool :=
  '0' ≤ c && c ≤ '9'

/-- Word character, the ASCII fragment of the regex class `\w`:
letters, digits and underscore. -/
def isWordChar (c : Char) : Bool :=
  ('a' ≤ c && c ≤ 'z') || ('A' ≤ c && c ≤ 'Z') || isDigitC c || c = '_'

/-- Rust `str::trim` (both ends, whitespace). -/
def trimStr (s : Str) : Str :=
  ((s.dropWhile (isWs ·)).reverse.dropWhile (isWs ·)).reverse

/-- Splits a character list at every `'\n'`.  The result is always nonempty:
`splitNl "a\nb" = [a, b]`, `splitNl "" = [[]]`, `splitNl "a\n" = [a, []]`. -/
def splitNl : Str → List Str
  | [] => [[]]
  | c :: rest =>
    if c = '\n' then [] :: splitNl rest
    else
      match splitNl rest with
      | p :: ps => (c :: p) :: ps
      | [] => [[c]]

/-- Removes one trailing `'\r'`, as both `str::lines` and `BufRead::lines`
do for a line that ended in `"\r\n"`. -/
def stripCr (l : Str) : Str :=
  if l.getLast? = some '\r' then l.dropLast else l

/-- Post-processing of `splitNl` output shared by `str::lines` and
`BufRead::lines`: every part except the final one ended with `'\n'` in the
original and has a trailing `'\r'` stripped; the final part (the text after
the last `'\n'`) is kept as is, except that it is dropped when empty
(a trailing line terminator does not produce an extra empty line). -/
def rustLinesAux : List Str → List Str
  | [] => []
  | [p] => if p = [] then [] else [p]
  | p :: ps => stripCr p :: rustLinesAux ps

/-- Rust line splitting: the common semantics of `str::lines` (used on the
`content` field of `ContentAppended` in `process_file_event`) and
`BufRead::lines` (used when reading files in `file_watcher.rs`).  Lines are
terminated by `'\n'` or `"\r\n"`; the final terminator is optional;
`rustLines "" = []`. -/
def rustLines (s : Str) : List Str :=
  rustLinesAux (splitNl s)

/-- Builds `new_content` exactly as the loop in `handle_file_modification`
(file_watcher.rs:196-211) does: for each read line, push a `'\n'` separator
only when the accumulator is nonempty, then push the line.  Leading empty
lines therefore leave the accumulator empty and insert no separator. -/
def joinFold (ls : List Str) : Str :=
  ls.foldl (fun acc l => if acc.isEmpty then acc ++ l else acc ++ '\n' :: l) []

/-- Decimal rendering of a `Nat`, for the `format!` calls that build entry ids. -/
def natStr (n : Nat) : Str :=
  (Nat.repr n).data

/-- The severity level of a log entry (log_level.rs). -/
inductive LogLevel where
  | debug | info | notice | warning | error | critical | alert | emergency
deriving DecidableEq, Repr

/-- LogLevel::parse (log_level.rs:38-50): lowercase, trim, then match the
known tokens; unknown tokens default to `Info`. -/
def LogLevel.parse (s : Str) : LogLevel :=
  let t := trimStr (s.map Char.toLower)
  if t = "debug".data then .debug
  else if t = "info".data || t = "information".data then .info
  else if t = "notice".data then .notice
  else if t = "warn".data || t = "warning".data then .warning
  else if t = "error".data || t = "err".data then .error
  else if t = "critical".data || t = "crit".data || t = "fatal".data then .critical
  else if t = "alert".data then .alert
  else if t = "emergency".data || t = "emerg".data then .emergency
  else .info

/-- Modelled from the spec: `LogLevel::from_string`, called by
`LaravelLogParser::parse` (laravel.rs:82), is not among the files under
`src/`.  The spec states that level strings map case-insensitively to the
severity enum and that unrecognized tokens map to the default; that is the
behaviour of the `LogLevel::parse` function that is present (log_level.rs),
so `from_string` is modelled as `parse`. -/
def LogLevel.from_string (s : Str) : LogLevel :=
  LogLevel.parse s

/-- Timestamps as parsed by chrono from `%Y-%m-%d %H:%M:%S`:
year, month, day, hour, minute, second. -/
structure Timestamp where
  year : Nat
  month : Nat
  day : Nat
  hour : Nat
  minute : Nat
  second : Nat
deriving DecidableEq, Repr

/-- A parsed log entry (log_entry.rs).  The wall-clock creation time that
`from_raw` embeds in the id is threaded in explicitly as `now`. -/
structure LogEntry where
  id : Str
  timestamp : Option Timestamp
  level : LogLevel
  message : Str
  raw : Str
  line_number : Nat
  context : Option Str
  stack_trace : Option (List Str)
  channel : Option Str
deriving DecidableEq, Repr

/-- LogEntry::from_raw (log_entry.rs): a raw Info-level entry whose message
is the raw line; the id is `"{line_number}-{now_millis}"`. -/
def LogEntry.from_raw (now : Nat) (raw : Str) (line_number : Nat) : LogEntry where
  id := natStr line_number ++ "-".data ++ natStr now
  timestamp := none
  level := .info
  message := raw
  raw := raw
  line_number := line_number
  context := none
  stack_trace := none
  channel := none

/-- LogEntry::with_stack_trace (log_entry.rs): derivation attaching a stack trace. -/
def LogEntry.with_stack_trace (e : LogEntry) (st : List Str) : LogEntry :=
  { e with stack_trace := some st }

/-- Consumes exactly `n` leading ASCII digits, returning them and the rest. -/
def takeDigitsN : Nat → Str → Option (Str × Str)
  | 0, s => some ([], s)
  | n + 1, c :: rest =>
    if isDigitC c then
      match takeDigitsN n rest with
      | some (ds, s) => some (c :: ds, s)
      | none => none
    else none
  | _ + 1, [] => none

/-- Consumes a maximal nonempty run of characters satisfying `p`
(the deterministic reading of a greedy `p+` followed by a non-`p` token). -/
def takeRun (p : Char → Bool) (s : Str) : Option (Str × Str) :=
  let run := s.takeWhile p
  if run.isEmpty then none else some (run, s.dropWhile p)

/-- Consumes one expected character. -/
def expectChar (c : Char) : Str → Option Str
  | d :: rest => if d = c then some rest else none
  | [] => none

/-- The anchored Laravel line regex (laravel.rs:16-18)
`^\[(\d{4}-\d{2}-\d{2}\s+\d{2}:\d{2}:\d{2})\]\s+(\w+)\.(\w+):\s*(.*)$`
as a deterministic matcher.  Every quantified class here (`\d`, `\s`, `\w`)
is disjoint from the literal token that follows it, so greedy maximal munch
is exact.  `(.*)` cannot span a newline, hence the final guard.  Returns the
captures (timestamp, channel, level, message). -/
def matchLaravel (s : Str) : Option (Str × Str × Str × Str) :=
  match expectChar '[' s with
  | none => none
  | some s =>
  match takeDigitsN 4 s with
  | none => none
  | some (y, s) =>
  match expectChar '-' s with
  | none => none
  | some s =>
  match takeDigitsN 2 s with
  | none => none
  | some (mo, s) =>
  match expectChar '-' s with
  | none => none
  | some s =>
  match takeDigitsN 2 s with
  | none => none
  | some (d, s) =>
  match takeRun (isWs ·) s with
  | none => none
  | some (ws, s) =>
  match takeDigitsN 2 s with
  | none => none
  | some (h, s) =>
  match expectChar ':' s with
  | none => none
  | some s =>
  match takeDigitsN 2 s with
  | none => none
  | some (mi, s) =>
  match expectChar ':' s with
  | none => none
  | some s =>
  match takeDigitsN 2 s with
  | none => none
  | some (sec, s) =>
  match expectChar ']' s with
  | none => none
  | some s =>
  match takeRun (isWs ·) s with
  | none => none
  | some (_, s) =>
  match takeRun (isWordChar ·) s with
  | none => none
  | some (channel, s) =>
  match expectChar '.' s with
  | none => none
  | some s =>
  match takeRun (isWordChar ·) s with
  | none => none
  | some (level, s) =>
  match expectChar ':' s with
  | none => none
  | some s =>
  let msg := s.dropWhile (isWs ·)
  if msg.contains '\n' then none
  else
    let ts := y ++ '-' :: mo ++ '-' :: d ++ ws ++ h ++ ':' :: mi ++ ':' :: sec
    some (ts, channel, level, msg)

/-- Digit list to number (most significant first). -/
def digitsToNat (ds : Str) : Nat :=
  ds.foldl (fun acc c => acc * 10 + (c.toNat - '0'.toNat)) 0

/-- Days in a month of the proleptic Gregorian calendar. -/
def daysInMonth (y m : Nat) : Nat :=
  if m = 2 then
    if y % 4 = 0 && (y % 100 ≠ 0 || y % 400 = 0) then 29 else 28
  else if m = 4 || m = 6 || m = 9 || m = 11 then 30
  else 31

/-- LaravelLogParser::parse_timestamp (laravel.rs:38-42): chrono parsing of
the captured slice with format `%Y-%m-%d %H:%M:%S` (the space in the format
consumes any run of whitespace).  The capture always has the exact digit
shape, so beyond the shape only the calendar validity check can fail
(chrono additionally accepts second 60 as a leap second; that fringe is
modelled as invalid). -/
def parse_timestamp (s : Str) : Option Timestamp :=
  match takeDigitsN 4 s with
  | none => none
  | some (y, s) =>
  match expectChar '-' s with
  | none => none
  | some s =>
  match takeDigitsN 2 s with
  | none => none
  | some (mo, s) =>
  match expectChar '-' s with
  | none => none
  | some s =>
  match takeDigitsN 2 s with
  | none => none
  | some (d, s) =>
  let s := s.dropWhile (isWs ·)
  match takeDigitsN 2 s with
  | none => none
  | some (h, s) =>
  match expectChar ':' s with
  | none => none
  | some s =>
  match takeDigitsN 2 s with
  | none => none
  | some (mi, s) =>
  match expectChar ':' s with
  | none => none
  | some s =>
  match takeDigitsN 2 s with
  | none => none
  | some (sec, s) =>
  let yn := digitsToNat y
  let mon := digitsToNat mo
  let dn := digitsToNat d
  let hn := digitsToNat h
  let minu := digitsToNat mi
  let sn := digitsToNat sec
  if s = [] && 1 ≤ mon && mon ≤ 12 && 1 ≤ dn && dn ≤ daysInMonth yn mon
      && hn ≤ 23 && minu ≤ 59 && sn ≤ 59 then
    some ⟨yn, mon, dn, hn, minu, sn⟩
  else none

/-- JSON insignificant whitespace (RFC 8259, as accepted by serde_json). -/
def isJsonWs (c : Char) : Bool :=
  c = ' ' || c = '\t' || c = '\n' || c = '\r'

/-- Consumes a JSON string body after the opening quote, including escapes. -/
def jsonStringRest : Nat → Str → Option Str
  | 0, _ => none
  | _ + 1, [] => none
  | fuel + 1, c :: rest =>
    if c = '"' then some rest
    else if c = '\\' then
      match rest with
      | 'u' :: a :: b :: cc :: dd :: rest2 =>
        if [a, b, cc, dd].all (fun x => isDigitC x || ('a' ≤ x && x ≤ 'f') || ('A' ≤ x && x ≤ 'F')) then
          jsonStringRest fuel rest2
        else none
      | e :: rest2 =>
        if e = '"' || e = '\\' || e = '/' || e = 'b' || e = 'f' || e = 'n' || e = 'r' || e = 't' then
          jsonStringRest fuel rest2
        else none
      | [] => none
    else if c.toNat < 0x20 then none
    else jsonStringRest fuel rest

/-- Consumes the fraction and exponent parts of a JSON number. -/
def jsonNumberTail (intPart : Str) (s : Str) : Option Str :=
  let fracDone : Option Str :=
    match intPart, s with
    | '0' :: _ :: _, _ => none
    | _, '.' :: rest => (takeRun (isDigitC ·) rest).map (·.2)
    | _, _ => some s
  match fracDone with
  | none => none
  | some s =>
    match s with
    | 'e' :: rest | 'E' :: rest =>
      let rest := match rest with
        | '+' :: r => r
        | '-' :: r => r
        | r => r
      (takeRun (isDigitC ·) rest).map (·.2)
    | _ => some s

/-- Consumes a JSON number (after an optional leading minus sign). -/
def jsonNumberRest (s : Str) : Option Str :=
  match s with
  | '0' :: rest => jsonNumberTail ['0'] rest
  | _ =>
    match takeRun (isDigitC ·) s with
    | none => none
    | some (intPart, rest) => jsonNumberTail intPart rest

mutual

/-- Consumes one JSON value; returns the remaining input. -/
def jsonValueRest : Nat → Str → Option Str
  | 0, _ => none
  | fuel + 1, s =>
    match s with
    | '{' :: rest =>
      let rest := rest.dropWhile (isJsonWs ·)
      match rest with
      | '}' :: rest2 => some rest2
      | _ => jsonMembersRest fuel rest
    | '[' :: rest =>
      let rest := rest.dropWhile (isJsonWs ·)
      match rest with
      | ']' :: rest2 => some rest2
      | _ => jsonElementsRest fuel rest
    | '"' :: rest => jsonStringRest (rest.length + 1) rest
    | '-' :: rest => jsonNumberRest rest
    | 't' :: 'r' :: 'u' :: 'e' :: rest => some rest
    | 'f' :: 'a' :: 'l' :: 's' :: 'e' :: rest => some rest
    | 'n' :: 'u' :: 'l' :: 'l' :: rest => some rest
    | c :: _ => if isDigitC c then jsonNumberRest s else none
    | [] => none

/-- Consumes `string : value` pairs separated by commas, then the closing brace. -/
def jsonMembersRest : Nat → Str → Option Str
  | 0, _ => none
  | fuel + 1, s =>
    match expectChar '"' s with
    | none => none
    | some s =>
    match jsonStringRest (s.length + 1) s with
    | none => none
    | some s =>
    match expectChar ':' (s.dropWhile (isJsonWs ·)) with
    | none => none
    | some s =>
    match jsonValueRest fuel (s.dropWhile (isJsonWs ·)) with
    | none => none
    | some s =>
    match s.dropWhile (isJsonWs ·) with
    | ',' :: rest => jsonMembersRest fuel (rest.dropWhile (isJsonWs ·))
    | '}' :: rest => some rest
    | _ => none

/-- Consumes values separated by commas, then the closing bracket. -/
def jsonElementsRest : Nat → Str → Option Str
  | 0, _ => none
  | fuel + 1, s =>
    match jsonValueRest fuel s with
    | none => none
    | some s =>
    match s.dropWhile (isJsonWs ·) with
    | ',' :: rest => jsonElementsRest fuel (rest.dropWhile (isJsonWs ·))
    | ']' :: rest => some rest
    | _ => none

end

/-- Models `serde_json::from_str::<Value>`: succeeds exactly on a single
well-formed JSON value surrounded by optional whitespace.  The parsed value
is kept as its raw text (only its presence matters to the claims). -/
def serdeJsonOk (s : Str) : Bool :=
  match jsonValueRest (s.length + 1) (s.dropWhile (isJsonWs ·)) with
  | some rest => (rest.dropWhile (isJsonWs ·)).isEmpty
  | none => false

/-- Index of the space of the last occurrence of `" \x7b"` in `s`
(Rust `str::rfind` with a two-character pattern). -/
def lastSpBrace : Nat → Option Nat → Str → Option Nat
  | _, acc, [] => acc
  | i, acc, c :: rest =>
    lastSpBrace (i + 1)
      (if c = ' ' && rest.head? = some '{' then some i else acc) rest

/-- LaravelLogParser::extract_context (laravel.rs:45-57): find the last
`" \x7b"`, take the suffix from the brace; when it ends with `'\x7d'` and
parses as JSON, return the trimmed prefix as the message together with the
context; otherwise return the message unchanged with no context. -/
def extract_context (message : Str) : Str × Option Str :=
  match lastSpBrace 0 none message with
  | some jsonStart =>
    let jsonStr := message.drop (jsonStart + 1)
    if jsonStr.getLast? = some '}' && serdeJsonOk jsonStr then
      (trimStr (message.take jsonStart), some jsonStr)
    else (message, none)
  | none => (message, none)

/-- LaravelLogParser::parse (laravel.rs:73-96): on a regex match, build the
entry from the captures; the id is `"laravel-{line_number}"`, the channel is
the matched environment, and no stack trace is attached. -/
def laravel_parse (line : Str) (line_number : Nat) : Option LogEntry :=
  match matchLaravel line with
  | none => none
  | some caps =>
    let timestamp_str := caps.1
    let environment := caps.2.1
    let level_str := caps.2.2.1
    let message := caps.2.2.2
    let timestamp := parse_timestamp timestamp_str
    let level := LogLevel.from_string level_str
    let cleaned := extract_context message
    some
      { id := "laravel-".data ++ natStr line_number
        timestamp := timestamp
        level := level
        message := cleaned.1
        raw := line
        line_number := line_number
        context := cleaned.2
        stack_trace := none
        channel := some environment }

/-- LaravelLogParser::can_parse (laravel.rs:98-100): regex `is_match`. -/
def laravel_can_parse (line : Str) : Bool :=
  (matchLaravel line).isSome

/-- Matches `^#\d+\s+` (laravel.rs:21): a stack-trace frame line. -/
def isStackFrame (line : Str) : Bool :=
  match line with
  | '#' :: rest =>
    match takeRun (isDigitC ·) rest with
    | some (_, s) => (takeRun (isWs ·) s).isSome
    | none => false
  | _ => false

/-- Matches `^\s+(?:at|in|thrown)\s+` (laravel.rs:24-25): an indented
continuation line. -/
def isContinuation (line : Str) : Bool :=
  match takeRun (isWs ·) line with
  | none => false
  | some (_, s) =>
    let kw : Option Str :=
      match s with
      | 'a' :: 't' :: rest => some rest
      | 'i' :: 'n' :: rest => some rest
      | 't' :: 'h' :: 'r' :: 'o' :: 'w' :: 'n' :: rest => some rest
      | _ => none
    match kw with
    | some rest => (takeRun (isWs ·) rest).isSome
    | none => false

/-- Rust `str::starts_with`: `pat` is a leading segment of `s`. -/
def startsWithStr : Str → Str → Bool
  | _, [] => true
  | [], _ :: _ => false
  | c :: cs, p :: ps => c = p && startsWithStr cs ps

/-- LaravelLogParser::is_stack_trace_line (laravel.rs:60-65). -/
def is_stack_trace_line (line : Str) : Bool :=
  isStackFrame line || isContinuation line
    || startsWithStr (trimStr line) "Stack trace:".data
    || startsWithStr (trimStr line) "[stacktrace]".data

/-- The stack-trace collection loop of LaravelLogParser::parse_multiline
(laravel.rs:111-126), over the lines after the first: stop at a line the
parser can parse (a new record start); push frame lines and non-blank
lines; push a blank line only when trace lines were already collected;
otherwise stop.  Returns the collected trace and the number of extra lines
consumed. -/
def collectTrace (acc : List Str) : List Str → List Str × Nat
  | [] => (acc, 0)
  | line :: rest =>
    if laravel_can_parse line then (acc, 0)
    else if is_stack_trace_line line || !(trimStr line).isEmpty then
      let r := collectTrace (acc ++ [line]) rest
      (r.1, r.2 + 1)
    else if (trimStr line).isEmpty && !acc.isEmpty then
      let r := collectTrace (acc ++ [line]) rest
      (r.1, r.2 + 1)
    else (acc, 0)

/-- LaravelLogParser::parse_multiline (laravel.rs:102-133): parse the first
line, collect continuation lines, attach them when nonempty; `consumed`
counts the first line plus the collected lines. -/
def laravel_parse_multiline (lines : List Str) (start_line : Nat) :
    Option (LogEntry × Nat) :=
  match lines with
  | [] => none
  | first_line :: rest =>
    match laravel_parse first_line start_line with
    | none => none
    | some entry =>
      let (stack_trace, extra) := collectTrace [] rest
      let entry := if stack_trace.isEmpty then entry
        else entry.with_stack_trace stack_trace
      some (entry, 1 + extra)

/-- LogWatcherState::parse_line (state.rs:267-277).  The parser list built
in `LogWatcherState::new` (state.rs:43) is exactly `[LaravelLogParser]`, so
trying each parser in order means trying the Laravel parser; on failure the
raw fallback entry is produced. -/
def parse_line (now : Nat) (line : Str) (line_number : Nat) : LogEntry :=
  match laravel_parse line line_number with
  | some entry => entry
  | none => LogEntry.from_raw now line line_number

/-- The cursor loop of LogWatcherState::parse_lines_multiline
(state.rs:285-308), fuelled: each iteration consumes at least one line, so
any fuel above the list length makes the fuel bound unreachable and the
function agree with the `while` loop.  Each pair carries the stored line
number and text of one line. -/
def parseMultilineGo (now : Nat) : Nat → List (Nat × Str) → List LogEntry
  | 0, _ => []
  | _ + 1, [] => []
  | fuel + 1, (line_number, line) :: rest =>
    if laravel_can_parse line then
      match laravel_parse_multiline (line :: rest.map (·.2)) line_number with
      | some (entry, consumed) =>
        entry :: parseMultilineGo now fuel (((line_number, line) :: rest).drop consumed)
      | none =>
        parse_line now line line_number :: parseMultilineGo now fuel rest
    else
      parse_line now line line_number :: parseMultilineGo now fuel rest

/-- LogWatcherState::parse_lines_multiline (state.rs:280-311). -/
def parse_lines_multiline (now : Nat) (lines : List (Nat × Str)) : List LogEntry :=
  parseMultilineGo now (lines.length + 1) lines

/-- The parsing step of the `ContentAppended` arm of `process_file_event`
(state.rs:398-412): split the event content into lines and parse each line
with the single-line parser, numbering line `i` as
`line_number - content.lines().count() + i + 1`. -/
def process_content_appended (now : Nat) (content : Str) (line_number : Nat) :
    List LogEntry :=
  (rustLines content).enum.map (fun p =>
    parse_line now p.2 (line_number - (rustLines content).length + p.1 + 1))

/-- FileState (file_watcher.rs:19-28): per-path bookkeeping of the last
known size and last known line number.  The dead `pattern` field is omitted. -/
structure FileState where
  size : Nat
  line_number : Nat
deriving DecidableEq, Repr

/-- The file-watch events relevant to modification handling
(ports.rs `FileWatchEvent`; the created/deleted/renamed/error arms carry no
state transition in `handle_file_modification`). -/
inductive WatchEvent where
  | contentAppended (content : Str) (line_number : Nat)
  | fileTruncated
deriving DecidableEq, Repr

/-- NotifyFileWatcher::handle_file_modification (file_watcher.rs:148-242)
for a tracked path, with the current content of the file passed in explicitly
(metadata and read succeed; `current_size` is the content length).
`current < previous` resets the stored state to zero and emits
`FileTruncated`; `current > previous` reads the lines after the previous
size, rebuilds `new_content` with the separator fold, emits
`ContentAppended` only when that content is nonempty, and always stores the
new size and line number; equal sizes do nothing. -/
def handle_file_modification (st : FileState) (file : Str) :
    FileState × Option WatchEvent :=
  let current_size := file.length
  if current_size < st.size then
    (⟨0, 0⟩, some .fileTruncated)
  else if current_size > st.size then
    let ls := rustLines (file.drop st.size)
    let line_number := st.line_number + ls.length
    let new_content := joinFold ls
    (⟨current_size, line_number⟩,
      if new_content.isEmpty then none
      else some (.contentAppended new_content line_number))
  else (st, none)

/-- The state stored by NotifyFileWatcher::watch_file on success
(file_watcher.rs:304-330): initial size and full line count of the file. -/
def watchInitState (file : Str) : FileState :=
  ⟨file.length, (rustLines file).length⟩

/-- Entry line numbers produced downstream of one classifier event: a
`ContentAppended` event is parsed by `process_file_event` and the numbers
are those attached to the emitted records; other events emit no records. -/
def eventNumbers (now : Nat) : Option WatchEvent → List Nat
  | some (.contentAppended content line_number) =>
    (process_content_appended now content line_number).map (·.line_number)
  | _ => []

/-- Runs a sequence of append-only modifications: each `chunk` is appended
to the file and the modification handler runs on the result.  Returns the
per-event lists of emitted record line numbers. -/
def appendRun (now : Nat) (st : FileState) (file : Str) :
    List Str → List (List Nat)
  | [] => []
  | chunk :: rest =>
    let file2 := file ++ chunk
    let r := handle_file_modification st file2
    eventNumbers now r.2 :: appendRun now r.1 file2 rest

/-- NotifyFileWatcher::read_initial_content (file_watcher.rs:245-283):
pair every line with its 1-based index, then keep only the last
`max_lines` lines when a limit is given (`split_off(len - max)`). -/
def read_initial_content (file : Str) (max_lines : Option Nat) :
    List (Nat × Str) :=
  let lines := (rustLines file).enum.map (fun p => (p.1 + 1, p.2))
  match max_lines with
  | some max => if lines.length > max then lines.drop (lines.length - max) else lines
  | none => lines

/-- What a path names on disk, for the `exists` / `is_file` checks of
`watch_file`: nothing, a regular file with some content, or a non-file
(directory or other special node, on which `is_file()` is false). -/
inductive FsKind where
  | missing
  | file (content : Str)
  | notFile
deriving DecidableEq, Repr

/-- WatchError (ports.rs:36-55), with the path payloads kept abstract. -/
inductive WatchError (P : Type) where
  | fileNotFound (p : P)
  | permissionDenied (p : P)
  | notAFile (p : P)
  | notADirectory (p : P)
  | alreadyWatching (p : P)
  | notWatching (p : P)
  | ioError
  | watcherError
deriving DecidableEq, Repr

/-- Paths are modelled as lists of components (absolute, from the root). -/
abbrev PathC := List String

/-- Association-list lookup for string-keyed maps (HashMap with unique keys). -/
def lookupKey {α : Type} (k : String) : List (String × α) → Option α
  | [] => none
  | (k2, v) :: rest => if k2 = k then some v else lookupKey k rest

/-- Association-list lookup keyed by paths. -/
def lookupPath {α : Type} (p : PathC) : List (PathC × α) → Option α
  | [] => none
  | (p2, v) :: rest => if p2 = p then some v else lookupPath p rest

/-- NotifyFileWatcher::watch_file (file_watcher.rs:287-334) with the
filesystem passed in as `fs`.  The checks run in source order: existence,
regular-file, then already-watching; only after all of them does the
function store a `FileState` (with the size and full line count of the file).
Every failure returns the error before any state is stored, which the
`Except` result captures: only the `ok` arm carries a new state table. -/
def watch_file (fs : PathC → FsKind) (states : List (PathC × FileState))
    (path : PathC) : Except (WatchError PathC) (List (PathC × FileState)) :=
  match fs path with
  | .missing => .error (.fileNotFound path)
  | .notFile => .error (.notAFile path)
  | .file content =>
    if (lookupPath path states).isSome then .error (.alreadyWatching path)
    else .ok (states ++ [(path, watchInitState content)])

/-- LogSourceType (log_source.rs). -/
inductive LogSourceType where
  | file
  | folder
deriving DecidableEq, Repr

/-- LogSourceStatus (log_source.rs). -/
inductive LogSourceStatus where
  | active | paused | error | stopped
deriving DecidableEq, Repr

/-- LogSource (log_source.rs), with the wall-clock `created_at` /
`last_activity_at` fields omitted (no claim observes them). -/
structure LogSource where
  id : String
  path : PathC
  source_type : LogSourceType
  name : String
  pattern : Option Str
  status : LogSourceStatus
  error_message : Option String
deriving DecidableEq, Repr

/-- LogSource::is_folder. -/
def LogSource.is_folder (s : LogSource) : Bool :=
  s.source_type = .folder

/-- LogWatcherState (state.rs:21-34): sources, the path-to-source map and
the per-source entry ledger, each as an association list standing for a
HashMap with unique keys (iteration order of `path_to_source` is
unspecified in the source; the list order stands for one such order). -/
structure LogWatcherState where
  sources : List (String × LogSource)
  path_to_source : List (PathC × String)
  entries : List (String × List LogEntry)

/-- LogWatcherState::get_source (state.rs:155-157). -/
def get_source (st : LogWatcherState) (id : String) : Option LogSource :=
  lookupKey id st.sources

/-- LogWatcherState::get_entries (state.rs:176-187): full sequence without a
limit; with a limit, `iter().rev().take(limit).rev()`; an unknown source id
yields the empty list. -/
def get_entries (st : LogWatcherState) (source_id : String)
    (limit : Option Nat) : List LogEntry :=
  match lookupKey source_id st.entries with
  | some entries =>
    match limit with
    | some l => ((entries.reverse.take l).reverse)
    | none => entries
  | none => []

/-- LogWatcherState::clear_entries (state.rs:190-194): empty the sequence of
the given source when present; an absent id changes nothing. -/
def clear_entries (st : LogWatcherState) (source_id : String) : LogWatcherState :=
  { st with entries := st.entries.map (fun kv =>
      if kv.1 = source_id then (kv.1, []) else kv) }

/-- Matching of the `*` and `?` metacharacters of the glob crate and literal
characters against a file name, fuelled for kernel reducibility (`*`
branches on both skipping and consuming).  Character ranges `[...]` are not
modelled: no pattern in the claims or the repository uses them.  Neither
`*` nor `?` matches a path separator. -/
def globMatchF : Nat → Str → Str → Bool
  | 0, _, _ => false
  | _ + 1, [], [] => true
  | fuel + 1, '*' :: ps, [] => globMatchF fuel ps []
  | fuel + 1, '*' :: ps, c :: cs =>
    globMatchF fuel ps (c :: cs) || (c ≠ '/' && globMatchF fuel ('*' :: ps) cs)
  | fuel + 1, '?' :: ps, c :: cs => c ≠ '/' && globMatchF fuel ps cs
  | _ + 1, _ :: _, [] => false
  | fuel + 1, p :: ps, c :: cs => p = c && globMatchF fuel ps cs
  | _ + 1, [], _ :: _ => false

/-- glob::Pattern::matches for the modelled pattern fragment. -/
def globMatches (pattern name : Str) : Bool :=
  globMatchF (pattern.length + name.length + 1) pattern name

/-- Path::parent as component lists: drop the last component; the root (or
empty path) has no parent. -/
def pathParent (p : PathC) : Option PathC :=
  match p with
  | [] => none
  | _ => some p.dropLast

/-- Path::starts_with: component-wise prefix test. -/
def pathStartsWith : PathC → PathC → Bool
  | _, [] => true
  | [], _ :: _ => false
  | c :: cs, p :: ps => c = p && pathStartsWith cs ps

/-- Path::file_name as the last component. -/
def pathFileName (p : PathC) : Option String :=
  p.getLast?

/-- The folder-source scan of get_source_id_for_path (state.rs:328-345):
walk `path_to_source`; for each watched path whose source is a folder, an
ancestor of the parent of the file, and whose pattern matches the file name,
return that source id; otherwise keep walking. -/
def folderScan (st : LogWatcherState) (parent : PathC) (path : PathC) :
    List (PathC × String) → Option String
  | [] => none
  | (watched_path, source_id) :: rest =>
    let hit :=
      match lookupKey source_id st.sources with
      | some source =>
        if source.is_folder && pathStartsWith parent watched_path then
          match source.pattern with
          | some pattern =>
            match pathFileName path with
            | some file_name => globMatches pattern file_name.data
            | none => false
          | none => false
        else false
      | none => false
    if hit then some source_id else folderScan st parent path rest

/-- LogWatcherState::get_source_id_for_path (state.rs:321-348): exact-path
lookup first; otherwise scan folder sources against the parent of the file. -/
def get_source_id_for_path (st : LogWatcherState) (path : PathC) : Option String :=
  match lookupPath path st.path_to_source with
  | some id => some id
  | none =>
    match pathParent path with
    | some parent => folderScan st parent path st.path_to_source
    | none => none

/-- Heading line of the stack-trace batch from the repository test suite
(laravel.rs:300-315). -/
def traceHeading : Str :=
  "[2024-01-15 10:30:00] local.ERROR: Exception occurred".data

/-- First stack frame of the batch. -/
def traceFrame0 : Str :=
  "#0 /app/Controller.php(50): method()".data

/-- Second stack frame of the batch. -/
def traceFrame1 : Str :=
  "#1 /app/Router.php(100): Controller->handle()".data

/-- The batch as appended content: heading and two frames in one write. -/
def traceBatch : Str :=
  traceHeading ++ '\n' :: traceFrame0 ++ '\n' :: traceFrame1

/-- The batch as numbered lines, as `parse_lines_multiline` receives them. -/
def tracePairs : List (Nat × Str) :=
  [(1, traceHeading), (2, traceFrame0), (3, traceFrame1)]

/-- Folder-source state for the directory-resolution scenario: one folder
source watching `app/logs` with pattern `laravel-*.log`. -/
def folderDemoState : LogWatcherState where
  sources :=
    [("source-1",
      { id := "source-1"
        path := ["app", "logs"]
        source_type := .folder
        name := "logs"
        pattern := some "laravel-*.log".data
        status := .active
        error_message := none })]
  path_to_source := [(["app", "logs"], "source-1")]
  entries := [("source-1", [])]

/-- File inside the watched folder matching the pattern. -/
def fileInFolder : PathC := ["app", "logs", "laravel-2024-01-15.log"]

/-- File with a matching name but in a sibling, unwatched directory. -/
def fileInSibling : PathC := ["app", "other", "laravel-2024-01-15.log"]

/-- File inside the watched folder that matches no pattern. -/
def fileNoMatch : PathC := ["app", "logs", "other.txt"]

/-- Exact-path state: one file source watched at its own path. -/
def exactDemoState : LogWatcherState where
  sources :=
    [("source-2",
      { id := "source-2"
        path := ["var", "log", "app.log"]
        source_type := .file
        name := "app.log"
        pattern := none
        status := .active
        error_message := none })]
  path_to_source := [(["var", "log", "app.log"], "source-2")]
  entries := [("source-2", [])]

/-- Three raw ledger entries for the limit scenarios. -/
def ledgerDemoEntries : List LogEntry :=
  [LogEntry.from_raw 0 "a".data 1, LogEntry.from_raw 0 "b".data 2,
   LogEntry.from_raw 0 "c".data 3]

/-- Ledger state holding the three entries under one source id. -/
def ledgerDemoState : LogWatcherState where
  sources := []
  path_to_source := []
  entries := [("source-1", ledgerDemoEntries)]

/-- Filesystem for the watch_file failure scenarios: a missing path, a
directory, and a regular file. -/
def watchDemoFs : PathC → FsKind := fun p =>
  if p = ["tmp", "gone.log"] then .missing
  else if p = ["tmp", "dir"] then .notFile
  else if p = ["tmp", "app.log"] then .file "x\n".data
  else .missing

/-- Watcher table already tracking the regular file. -/
def watchDemoStates : List (PathC × FileState) :=
  [(["tmp", "app.log"], ⟨2, 1⟩)]

/-- splitNl never returns the empty list. -/
theorem splitNl_ne_nil (s : Str) : splitNl s ≠ [] := by
  match s with
  | [] => simp [splitNl]
  | c :: rest =>
    by_cases hc : c = '\n'
    · simp [splitNl, hc]
    · simp only [splitNl, if_neg hc]
      cases h : splitNl rest <;> simp

/-- Parts produced by splitNl contain no newline. -/
theorem splitNl_no_nl (s : Str) : ∀ l ∈ splitNl s, '\n' ∉ l := by
  induction s with
  | nil => intro l hl; simp [splitNl] at hl; simp [hl]
  | cons c rest ih =>
    intro l hl
    by_cases hc : c = '\n'
    · simp only [splitNl, if_pos hc] at hl
      rcases List.mem_cons.mp hl with h | h
      · simp [h]
      · exact ih l h
    · simp only [splitNl, if_neg hc] at hl
      cases h : splitNl rest with
      | nil => exact absurd h (splitNl_ne_nil rest)
      | cons p ps =>
        rw [h] at hl
        rcases List.mem_cons.mp hl with h2 | h2
        · subst h2
          intro hmem
          rcases List.mem_cons.mp hmem with h3 | h3
          · exact hc h3.symm
          · exact ih p (h ▸ List.mem_cons_self p ps) h3
        · exact ih l (h ▸ List.mem_cons_of_mem p h2)

/-- stripCr only removes characters, so membership is preserved downward. -/
theorem mem_of_mem_stripCr {x : Char} {l : Str} (h : x ∈ stripCr l) : x ∈ l := by
  unfold stripCr at h
  by_cases hc : l.getLast? = some '\r'
  · rw [if_pos hc] at h
    exact (List.dropLast_sublist l).subset h
  · rw [if_neg hc] at h
    exact h

/-- Lines in rustLinesAux output come from the input parts, possibly
stripped of a carriage return. -/
theorem mem_rustLinesAux {l : Str} : ∀ {ps : List Str},
    l ∈ rustLinesAux ps → ∃ p ∈ ps, l = stripCr p ∨ l = p := by
  intro ps
  induction ps with
  | nil => intro h; simp [rustLinesAux] at h
  | cons p ps ih =>
    intro h
    cases ps with
    | nil =>
      simp only [rustLinesAux] at h
      by_cases hp : p = []
      · simp [hp] at h
      · rw [if_neg hp] at h
        rcases List.mem_singleton.mp h with h2
        exact ⟨p, List.mem_singleton.mpr rfl, Or.inr h2⟩
    | cons q qs =>
      simp only [rustLinesAux] at h
      rcases List.mem_cons.mp h with h2 | h2
      · exact ⟨p, List.mem_cons_self p _, Or.inl h2⟩
      · obtain ⟨r, hr, hor⟩ := ih h2
        exact ⟨r, List.mem_cons_of_mem p hr, hor⟩

/-- Lines produced by rustLines contain no newline. -/
theorem rustLines_no_nl (s : Str) : ∀ l ∈ rustLines s, '\n' ∉ l := by
  intro l hl
  obtain ⟨p, hp, hor⟩ := mem_rustLinesAux hl
  have hpn := splitNl_no_nl s p hp
  rcases hor with h | h
  · subst h
    intro hx
    exact hpn (mem_of_mem_stripCr hx)
  · subst h
    exact hpn

/-- The separator step of `joinFold`. -/
def joinStep (acc l : Str) : Str :=
  if acc.isEmpty then acc ++ l else acc ++ '\n' :: l

/-- joinFold is a left fold of joinStep starting from the empty accumulator. -/
theorem joinFold_eq_foldl (ls : List Str) : joinFold ls = ls.foldl joinStep [] := rfl

/-- Folding joinStep from a nonempty accumulator interleaves newlines. -/
theorem foldl_joinStep_of_ne (ls : List Str) : ∀ acc : Str, acc ≠ [] →
    ls.foldl joinStep acc = acc ++ (ls.map (fun x => '\n' :: x)).flatten := by
  induction ls with
  | nil => intro acc _; simp
  | cons l ls ih =>
    intro acc hacc
    have hstep : joinStep acc l = acc ++ '\n' :: l := by
      unfold joinStep
      rw [if_neg (by simpa [List.isEmpty_iff] using hacc)]
    have hne : acc ++ '\n' :: l ≠ [] := by simp
    calc (l :: ls).foldl joinStep acc = ls.foldl joinStep (joinStep acc l) := rfl
      _ = (acc ++ '\n' :: l) ++ (ls.map (fun x => '\n' :: x)).flatten := by
          rw [hstep]; exact ih _ hne
      _ = acc ++ (('\n' :: l) ++ (ls.map (fun x => '\n' :: x)).flatten) := by
          rw [List.append_assoc]
      _ = acc ++ ((l :: ls).map (fun x => '\n' :: x)).flatten := by simp

/-- joinFold on a list with a nonempty head. -/
theorem joinFold_cons_of_ne {l : Str} (ls : List Str) (hl : l ≠ []) :
    joinFold (l :: ls) = l ++ (ls.map (fun x => '\n' :: x)).flatten := by
  rw [joinFold_eq_foldl]
  have hstep : joinStep [] l = l := by simp [joinStep]
  calc (l :: ls).foldl joinStep [] = ls.foldl joinStep (joinStep [] l) := rfl
    _ = ls.foldl joinStep l := by rw [hstep]
    _ = l ++ (ls.map (fun x => '\n' :: x)).flatten := foldl_joinStep_of_ne ls l hl

/-- joinFold of a nonempty list of nonempty lines is nonempty. -/
theorem joinFold_ne_nil {l : Str} (ls : List Str) (hl : l ≠ []) :
    joinFold (l :: ls) ≠ [] := by
  rw [joinFold_cons_of_ne ls hl]
  intro h
  exact hl (List.append_eq_nil.mp h).1

/-- joinFold of all-empty lines is empty: the separator is only pushed once
the accumulator is nonempty, which never happens. -/
theorem joinFold_all_nil : ∀ ls : List Str, (∀ x ∈ ls, x = []) → joinFold ls = [] := by
  intro ls h
  rw [joinFold_eq_foldl]
  induction ls with
  | nil => rfl
  | cons l ls ih =>
    have hl : l = [] := h l (List.mem_cons_self l ls)
    have hstep : joinStep [] l = [] := by simp [joinStep, hl]
    calc (l :: ls).foldl joinStep [] = ls.foldl joinStep (joinStep [] l) := rfl
      _ = ls.foldl joinStep [] := by rw [hstep]
      _ = [] := ih (fun x hx => h x (List.mem_cons_of_mem l hx))

/-- splitNl of a newline-free string is one part. -/
theorem splitNl_of_no_nl : ∀ l : Str, '\n' ∉ l → splitNl l = [l] := by
  intro l
  induction l with
  | nil => intro _; rfl
  | cons c l ih =>
    intro h
    have hc : c ≠ '\n' := fun hc => h (hc ▸ List.mem_cons_self c l)
    have hl : '\n' ∉ l := fun hm => h (List.mem_cons_of_mem c hm)
    simp only [splitNl, if_neg hc, ih hl]

/-- Prepending a newline-free segment and a newline prepends one part. -/
theorem splitNl_append_nl : ∀ l s : Str, '\n' ∉ l →
    splitNl (l ++ '\n' :: s) = l :: splitNl s := by
  intro l
  induction l with
  | nil => intro s _; simp [splitNl]
  | cons c l ih =>
    intro s h
    have hc : c ≠ '\n' := fun hc => h (hc ▸ List.mem_cons_self c l)
    have hl : '\n' ∉ l := fun hm => h (List.mem_cons_of_mem c hm)
    simp only [List.cons_append, splitNl, if_neg hc, List.append_eq, ih s hl]

/-- splitNl inverts joinFold on nonempty, newline-free lines. -/
theorem splitNl_joinFold : ∀ (ls : List Str) (l : Str),
    (∀ x ∈ l :: ls, x ≠ []) → (∀ x ∈ l :: ls, '\n' ∉ x) →
    splitNl (joinFold (l :: ls)) = l :: ls := by
  intro ls
  induction ls with
  | nil =>
    intro l hne hnl
    rw [joinFold_cons_of_ne [] (hne l (List.mem_cons_self l []))]
    simp only [List.map_nil, List.flatten_nil, List.append_nil]
    exact splitNl_of_no_nl l (hnl l (List.mem_cons_self l []))
  | cons x xs ih =>
    intro l hne hnl
    have hl : l ≠ [] := hne l (List.mem_cons_self l _)
    have hlnl : '\n' ∉ l := hnl l (List.mem_cons_self l _)
    have hx : x ≠ [] := hne x (List.mem_cons_of_mem l (List.mem_cons_self x xs))
    rw [joinFold_cons_of_ne (x :: xs) hl]
    have hflat : ((x :: xs).map (fun y => '\n' :: y)).flatten
        = '\n' :: (x ++ (xs.map (fun y => '\n' :: y)).flatten) := by simp
    rw [hflat, splitNl_append_nl l _ hlnl]
    have hrest : splitNl (x ++ (xs.map (fun y => '\n' :: y)).flatten)
        = x :: xs := by
      have := ih x
        (fun y hy => hne y (List.mem_cons_of_mem l hy))
        (fun y hy => hnl y (List.mem_cons_of_mem l hy))
      rwa [joinFold_cons_of_ne xs hx] at this
    rw [hrest]

/-- rustLinesAux preserves length when every part is nonempty. -/
theorem rustLinesAux_length : ∀ ps : List Str, (∀ p ∈ ps, p ≠ []) →
    (rustLinesAux ps).length = ps.length := by
  intro ps
  induction ps with
  | nil => intro _; rfl
  | cons p ps ih =>
    intro h
    cases ps with
    | nil =>
      have hp : p ≠ [] := h p (List.mem_cons_self p [])
      simp [rustLinesAux, if_neg hp]
    | cons q qs =>
      simp only [rustLinesAux, List.length_cons]
      rw [ih (fun r hr => h r (List.mem_cons_of_mem p hr))]
      simp

/-- Line count of the rebuilt content: for nonempty, newline-free lines the
content splits back into exactly as many lines. -/
theorem rustLines_joinFold_length (ls : List Str)
    (hne : ∀ x ∈ ls, x ≠ []) (hnl : ∀ x ∈ ls, '\n' ∉ x) :
    (rustLines (joinFold ls)).length = ls.length := by
  cases ls with
  | nil => rfl
  | cons l ls =>
    unfold rustLines
    rw [splitNl_joinFold ls l hne hnl]
    exact rustLinesAux_length (l :: ls) hne

/-- rustLines of a nonempty string is nonempty. -/
theorem rustLines_ne_nil {s : Str} (h : s ≠ []) : rustLines s ≠ [] := by
  match s with
  | [] => exact absurd rfl h
  | c :: rest =>
    unfold rustLines
    by_cases hc : c = '\n'
    · simp only [splitNl, if_pos hc]
      cases h2 : splitNl rest with
      | nil => exact absurd h2 (splitNl_ne_nil rest)
      | cons q qs => simp [rustLinesAux]
    · simp only [splitNl, if_neg hc]
      cases h2 : splitNl rest with
      | nil => exact absurd h2 (splitNl_ne_nil rest)
      | cons q qs =>
        cases qs with
        | nil => simp [rustLinesAux]
        | cons r rs => simp [rustLinesAux]

/-- Line number of a parsed entry from a successful Laravel parse. -/
theorem laravel_parse_line_number {l : Str} {n : Nat} {e : LogEntry}
    (h : laravel_parse l n = some e) : e.line_number = n := by
  unfold laravel_parse at h
  cases h2 : matchLaravel l with
  | none => rw [h2] at h; cases h
  | some caps =>
    rw [h2] at h
    simp only [Option.some.injEq] at h
    rw [← h]

/-- The single-line parser always attaches the line number it is given. -/
theorem parse_line_line_number (now : Nat) (l : Str) (n : Nat) :
    (parse_line now l n).line_number = n := by
  unfold parse_line
  cases h : laravel_parse l n with
  | none => rfl
  | some e => exact laravel_parse_line_number h

/-- Mapping a function of the index over an enumerated list is mapping it
over the index range. -/
theorem enumFrom_map_fst_apply {α β : Type} (f : Nat → β) :
    ∀ (xs : List α) (k : Nat),
    (xs.enumFrom k).map (fun p => f p.1) = (List.range' k xs.length).map f := by
  intro xs
  induction xs with
  | nil => intro k; rfl
  | cons x xs ih =>
    intro k
    simp only [List.enumFrom_cons, List.map_cons, List.length_cons, List.range'_succ]
    rw [ih (k + 1)]

/-- Shifting a range by mapping addition. -/
theorem range'_map_shift (a : Nat) : ∀ (n s : Nat),
    (List.range' s n).map (fun i => a + i + 1) = List.range' (a + s + 1) n := by
  intro n
  induction n with
  | zero => intro s; rfl
  | succ n ih =>
    intro s
    simp only [List.range'_succ, List.map_cons]
    rw [ih (s + 1)]
    have h2 : a + (s + 1) + 1 = a + s + 1 + 1 := by omega
    rw [h2]

/-- Record line numbers produced from one `ContentAppended` event: an
arithmetic progression determined by the final line number of the event and the
line count of the content. -/
theorem process_content_appended_numbers (now : Nat) (content : Str) (ln : Nat) :
    (process_content_appended now content ln).map (·.line_number)
      = (List.range' 0 (rustLines content).length).map
          (fun i => ln - (rustLines content).length + i + 1) := by
  unfold process_content_appended
  rw [List.map_map]
  have hcomp : ((fun e : LogEntry => e.line_number) ∘ fun p : Nat × Str =>
      parse_line now p.2 (ln - (rustLines content).length + p.1 + 1))
      = fun p : Nat × Str => ln - (rustLines content).length + p.1 + 1 := by
    funext p
    exact parse_line_line_number now p.2 _
  rw [hcomp]
  exact enumFrom_map_fst_apply
    (fun i => ln - (rustLines content).length + i + 1) (rustLines content) 0

/-- Modification handling when the size is unchanged: no event, no state change. -/
theorem handle_eq_branch {st : FileState} {file : Str} (h : file.length = st.size) :
    handle_file_modification st file = (st, none) := by
  simp only [handle_file_modification]
  rw [if_neg (by omega), if_neg (by omega)]

/-- Modification handling on growth: state advances to the new size and line
count; the event is emitted exactly when the rebuilt content is nonempty. -/
theorem handle_grow {st : FileState} {file : Str} (h : st.size < file.length) :
    handle_file_modification st file
      = (⟨file.length, st.line_number + (rustLines (file.drop st.size)).length⟩,
         if (joinFold (rustLines (file.drop st.size))).isEmpty then none
         else some (.contentAppended (joinFold (rustLines (file.drop st.size)))
           (st.line_number + (rustLines (file.drop st.size)).length))) := by
  simp only [handle_file_modification]
  rw [if_neg (by omega), if_pos (by omega)]

/-- Modification handling on shrink: state resets, truncation event. -/
theorem handle_trunc {st : FileState} {file : Str} (h : file.length < st.size) :
    handle_file_modification st file = (⟨0, 0⟩, some .fileTruncated) := by
  simp only [handle_file_modification]
  rw [if_pos (by omega)]

/-- Numbers emitted for one growth event whose read lines are all nonempty
and newline-free: the progression continuing the base line number. -/
theorem eventNumbers_grow (now base : Nat) (ls : List Str)
    (hne : ∀ l ∈ ls, l ≠ []) (hnl : ∀ l ∈ ls, '\n' ∉ l) :
    eventNumbers now
        (if (joinFold ls).isEmpty then none
         else some (.contentAppended (joinFold ls) (base + ls.length)))
      = List.range' (base + 1) ls.length := by
  cases ls with
  | nil => simp [joinFold, eventNumbers]
  | cons l ls =>
    have hlne : l ≠ [] := hne l (List.mem_cons_self l ls)
    have hcontent : joinFold (l :: ls) ≠ [] := joinFold_ne_nil ls hlne
    rw [if_neg (by simpa [List.isEmpty_iff] using hcontent)]
    have hcount : (rustLines (joinFold (l :: ls))).length = (l :: ls).length :=
      rustLines_joinFold_length (l :: ls) hne hnl
    simp only [eventNumbers]
    rw [process_content_appended_numbers, hcount]
    have hmap : (fun i => base + (l :: ls).length - (l :: ls).length + i + 1)
        = fun i => base + i + 1 := by
      funext i; omega
    rw [hmap]
    have := range'_map_shift base (l :: ls).length 0
    simpa using this

/-- Line numbers across an append-only run: with every read line nonempty,
the flattened emitted numbers are one contiguous run continuing the stored
line number. -/
theorem appendRun_flatten (now : Nat) : ∀ (chunks : List Str) (st : FileState) (file : Str),
    st.size = file.length →
    (∀ chunk ∈ chunks, ∀ l ∈ rustLines chunk, l ≠ []) →
    (appendRun now st file chunks).flatten
      = List.range' (st.line_number + 1)
          ((chunks.map (fun c => (rustLines c).length)).sum) := by
  intro chunks
  induction chunks with
  | nil => intro st file _ _; simp [appendRun]
  | cons chunk rest ih =>
    intro st file hsz hcl
    by_cases hc : chunk = []
    · subst hc
      simp only [appendRun, List.append_nil]
      rw [handle_eq_branch hsz.symm]
      dsimp only
      rw [List.flatten_cons]
      have hrest := ih st file hsz (fun c hc2 => hcl c (List.mem_cons_of_mem _ hc2))
      rw [hrest]
      simp [eventNumbers, rustLines, rustLinesAux, splitNl]
    · have hgt : st.size < (file ++ chunk).length := by
        rw [List.length_append]
        have := List.length_pos.mpr hc
        omega
      simp only [appendRun]
      rw [handle_grow hgt]
      have hdrop : (file ++ chunk).drop st.size = chunk := by
        rw [hsz]; exact List.drop_left file chunk
      rw [hdrop]
      dsimp only
      rw [List.flatten_cons]
      rw [eventNumbers_grow now st.line_number (rustLines chunk)
        (hcl chunk (List.mem_cons_self chunk rest)) (rustLines_no_nl chunk)]
      rw [ih ⟨(file ++ chunk).length, st.line_number + (rustLines chunk).length⟩
        (file ++ chunk) rfl (fun c hc2 => hcl c (List.mem_cons_of_mem _ hc2))]
      have happ := List.range'_append_1 (st.line_number + 1) (rustLines chunk).length
        ((rest.map (fun c => (rustLines c).length)).sum)
      have h1 : st.line_number + (rustLines chunk).length + 1
          = st.line_number + 1 + (rustLines chunk).length := by omega
      rw [h1, happ]
      simp only [List.map_cons, List.sum_cons]
      congr 1
      omega

/-- Entries produced by a successful Laravel single-line parse carry no
stack trace: `parse` always constructs the record with `stack_trace: None`. -/
theorem laravel_parse_stack_trace {l : Str} {n : Nat} {e : LogEntry}
    (h : laravel_parse l n = some e) : e.stack_trace = none := by
  unfold laravel_parse at h
  cases h2 : matchLaravel l with
  | none => rw [h2] at h; cases h
  | some caps =>
    rw [h2] at h
    simp only [Option.some.injEq] at h
    rw [← h]

/-- C7: parsing the single line `[2024-01-15 10:30:00] local.ERROR: Boom`
with the Laravel parser produces a record with severity level Error,
channel "local", message "Boom", and no structured context (together with
the expected timestamp, id, raw line and line number). -/
theorem c7_laravel_single_line_roundtrip :
    laravel_parse "[2024-01-15 10:30:00] local.ERROR: Boom".data 1
      = some
        { id := "laravel-1".data
          timestamp := some ⟨2024, 1, 15, 10, 30, 0⟩
          level := .error
          message := "Boom".data
          raw := "[2024-01-15 10:30:00] local.ERROR: Boom".data
          line_number := 1
          context := none
          stack_trace := none
          channel := some "local".data } := by
  decide

/-- C1 counterexample: the `ContentAppended` arm of `process_file_event`
parses the appended batch line by line, not with the multiline algorithm.
For the stack-trace batch appended together with its heading, the handler
produces three records, none carrying continuation lines, whereas the
multiline algorithm applied to the same batch produces a single record.
The claim, which asserts the handler uses the multiline algorithm and
yields one record, is therefore false at this input. -/
theorem c1_counterexample_per_line_parse :
    (process_content_appended 0 traceBatch 3).length = 3 ∧
    (process_content_appended 0 traceBatch 3).map (·.stack_trace)
      = [none, none, none] ∧
    (parse_lines_multiline 0 tracePairs).length = 1 := by
  refine ⟨by decide, by decide, by decide⟩

/-- C1 as amended: for every batch delivered as a `ContentAppended` event,
the engine parses the batch line by line with the single-line parser — one
record per physical line, and no record ever carries continuation lines
(the multiline algorithm is used only for initial reads). -/
theorem c1_amended_append_parses_per_line (now : Nat) (content : Str)
    (line_number : Nat) :
    (process_content_appended now content line_number).length
        = (rustLines content).length ∧
    ∀ e ∈ process_content_appended now content line_number,
      e.stack_trace = none := by
  constructor
  · unfold process_content_appended
    simp
  · intro e he
    unfold process_content_appended at he
    obtain ⟨p, _, hpe⟩ := List.mem_map.mp he
    rw [← hpe]
    unfold parse_line
    cases h : laravel_parse p.2 (line_number - (rustLines content).length + p.1 + 1) with
    | none => rfl
    | some e2 => exact laravel_parse_stack_trace h

/-- Witness for the amended C1 at the stack-trace batch. -/
theorem c1_amended_append_parses_per_line_witness :
    (process_content_appended 0 traceBatch 3).length
        = (rustLines traceBatch).length ∧
    parse_line 0 traceFrame0 2 ∈ process_content_appended 0 traceBatch 3 ∧
    (parse_line 0 traceFrame0 2).stack_trace = none :=
  ⟨(c1_amended_append_parses_per_line 0 traceBatch 3).1, by decide,
    (c1_amended_append_parses_per_line 0 traceBatch 3).2 _ (by decide)⟩

/-- C2 counterexample: watch a file holding one line (`"x\n"`, watch-time
line count 1), then append `"a\n\n"` in one modification.  Exactly one
record is emitted, so the claimed contiguous run starting at watch-count+1
would be `[2]`; the run actually emitted is `[3]`.  The trailing empty line
is counted by the watcher but lost when the content is rebuilt, so the
claim is false at this input. -/
theorem c2_counterexample_gap :
    (appendRun 0 (watchInitState "x\n".data) "x\n".data ["a\n\n".data]).flatten
      = [3] ∧
    (rustLines "x\n".data).length + 1 = 2 := by
  refine ⟨by decide, by decide⟩

/-- C2 as amended: for every watched file and every sequence of append-only
modifications in which no batch of newly read lines contains an empty line,
the record line numbers emitted across successive `ContentAppended` events
form a contiguous increasing run starting at the watch-time line count + 1,
with no gaps and no repeats. -/
theorem c2_amended_contiguous_run (now : Nat) (initial : Str)
    (chunks : List Str)
    (hclean : ∀ chunk ∈ chunks, ∀ l ∈ rustLines chunk, l ≠ []) :
    (appendRun now (watchInitState initial) initial chunks).flatten
      = List.range' ((rustLines initial).length + 1)
          ((chunks.map (fun c => (rustLines c).length)).sum) :=
  appendRun_flatten now chunks (watchInitState initial) initial rfl hclean

/-- Witness for the amended C2: one watched line, then two clean appends
adding lines 2, 3 and 4. -/
theorem c2_amended_contiguous_run_witness :
    (∀ chunk ∈ ["a\nb\n".data, "c\n".data], ∀ l ∈ rustLines chunk, l ≠ []) ∧
    (appendRun 0 (watchInitState "x\n".data) "x\n".data
        ["a\nb\n".data, "c\n".data]).flatten
      = List.range' ((rustLines "x\n".data).length + 1)
          (((["a\nb\n".data, "c\n".data] : List Str).map
            (fun c => (rustLines c).length)).sum) ∧
    (appendRun 0 (watchInitState "x\n".data) "x\n".data
        ["a\nb\n".data, "c\n".data]).flatten = [2, 3, 4] :=
  ⟨by decide,
    c2_amended_contiguous_run 0 "x\n".data ["a\nb\n".data, "c\n".data] (by decide),
    by decide⟩

/-- C3 counterexample: after a truncation resets the stored state to zero,
appending `"a\n\n"` emits its first (and only) record with line number 2,
not 1: the unconditional restart at 1 of the claim fails when the appended
content ends with an empty line. -/
theorem c3_counterexample_restart :
    handle_file_modification ⟨5, 3⟩ [] = (⟨0, 0⟩, some .fileTruncated) ∧
    eventNumbers 0 (handle_file_modification ⟨0, 0⟩ "a\n\n".data).2 = [2] := by
  refine ⟨by decide, by decide⟩

/-- C3 as amended: observing a current size below the stored size emits
`FileTruncated` and resets the stored size and line number to 0; records
emitted for content appended after the truncation whose read lines are all
nonempty are numbered starting again at 1, regardless of the prior count. -/
theorem c3_amended_truncation_reset (now : Nat) (st : FileState)
    (file g : Str) (htrunc : file.length < st.size) (hg : g ≠ [])
    (hclean : ∀ l ∈ rustLines g, l ≠ []) :
    handle_file_modification st file = (⟨0, 0⟩, some .fileTruncated) ∧
    eventNumbers now (handle_file_modification ⟨0, 0⟩ g).2
      = List.range' 1 (rustLines g).length := by
  refine ⟨handle_trunc htrunc, ?_⟩
  have hgrow : (⟨0, 0⟩ : FileState).size < g.length := List.length_pos.mpr hg
  rw [handle_grow hgrow]
  dsimp only
  rw [List.drop_zero]
  have h := eventNumbers_grow now 0 (rustLines g) hclean (rustLines_no_nl g)
  simpa using h

/-- Witness for the amended C3: truncation of a 3-line file, then a clean
two-line append numbered 1 and 2. -/
theorem c3_amended_truncation_reset_witness :
    handle_file_modification ⟨6, 3⟩ "ab".data = (⟨0, 0⟩, some .fileTruncated) ∧
    eventNumbers 0 (handle_file_modification ⟨0, 0⟩ "a\nb\n".data).2
      = List.range' 1 (rustLines "a\nb\n".data).length ∧
    eventNumbers 0 (handle_file_modification ⟨0, 0⟩ "a\nb\n".data).2 = [1, 2] := by
  have h := c3_amended_truncation_reset 0 ⟨6, 3⟩ "ab".data "a\nb\n".data
    (by decide) (by decide) (by decide)
  exact ⟨h.1, h.2, by decide⟩

/-- C10: on growth, a `ContentAppended` event is emitted if and only if the
rebuilt concatenation of the newly read lines is nonempty; the stored state
always advances to the new size and line count, in particular when the new
bytes split entirely into empty lines, in which case no event is emitted. -/
theorem c10_grow_event_iff_nonempty (st : FileState) (file : Str)
    (hgrow : st.size < file.length) :
    ((handle_file_modification st file).2
        = some (.contentAppended (joinFold (rustLines (file.drop st.size)))
            (st.line_number + (rustLines (file.drop st.size)).length))
      ↔ joinFold (rustLines (file.drop st.size)) ≠ []) ∧
    (handle_file_modification st file).1
      = ⟨file.length, st.line_number + (rustLines (file.drop st.size)).length⟩ ∧
    ((∀ l ∈ rustLines (file.drop st.size), l = []) →
      (handle_file_modification st file).2 = none) := by
  rw [handle_grow hgrow]
  dsimp only
  refine ⟨?_, rfl, ?_⟩
  · by_cases h : (joinFold (rustLines (file.drop st.size))).isEmpty
    · rw [if_pos h]
      rw [List.isEmpty_iff] at h
      simp [h]
    · rw [if_neg h]
      rw [List.isEmpty_iff] at h
      simp [h]
  · intro hall
    have hnil := joinFold_all_nil (rustLines (file.drop st.size)) hall
    rw [hnil]
    simp

/-- Witness for C10: appending two bare newlines to an empty watched file
emits nothing but advances the stored size and line number to 2. -/
theorem c10_grow_event_iff_nonempty_witness :
    (handle_file_modification ⟨0, 0⟩ "\n\n".data).2 = none ∧
    (handle_file_modification ⟨0, 0⟩ "\n\n".data).1 = ⟨2, 2⟩ := by
  have h := c10_grow_event_iff_nonempty ⟨0, 0⟩ "\n\n".data (by decide)
  exact ⟨h.2.2 (by decide), by decide⟩

/-- C4: resolving the owning source for a concrete file path returns the
exact-path source when one exists; otherwise a file under a watched folder
whose glob matches the file name resolves to the source id of that folder, and a
file in a sibling unwatched directory, or matching no pattern, resolves to
none. -/
theorem c4_source_resolution :
    (∀ (st : LogWatcherState) (p : PathC) (id : String),
        lookupPath p st.path_to_source = some id →
        get_source_id_for_path st p = some id) ∧
    get_source_id_for_path folderDemoState fileInFolder = some "source-1" ∧
    get_source_id_for_path folderDemoState fileInSibling = none ∧
    get_source_id_for_path folderDemoState fileNoMatch = none := by
  refine ⟨?_, by decide, by decide, by decide⟩
  intro st p id h
  unfold get_source_id_for_path
  rw [h]

/-- Witness for the exact-path clause of C4 at a concrete file source. -/
theorem c4_source_resolution_witness :
    lookupPath ["var", "log", "app.log"] exactDemoState.path_to_source
      = some "source-2" ∧
    get_source_id_for_path exactDemoState ["var", "log", "app.log"]
      = some "source-2" :=
  ⟨by decide, c4_source_resolution.1 exactDemoState _ _ (by decide)⟩

/-- C5: for a source whose ledger holds the sequence `E`, `get_entries`
without a limit returns `E` in full, and with limit `L` returns the last
`min L |E|` records of `E` as a suffix in original order. -/
theorem c5_get_entries_suffix (st : LogWatcherState) (id : String)
    (E : List LogEntry) (L : Nat)
    (h : lookupKey id st.entries = some E) :
    get_entries st id none = E ∧
    get_entries st id (some L) = E.drop (E.length - L) ∧
    (get_entries st id (some L)).length = min L E.length := by
  have h1 : get_entries st id none = E := by
    unfold get_entries; rw [h]
  have h2 : get_entries st id (some L) = (E.reverse.take L).reverse := by
    unfold get_entries; rw [h]
  refine ⟨h1, ?_, ?_⟩
  · rw [h2, List.take_reverse, List.reverse_reverse]
  · rw [h2, List.take_reverse, List.reverse_reverse, List.length_drop]
    omega

/-- Witness for C5 at a three-entry ledger with limit 2. -/
theorem c5_get_entries_suffix_witness :
    lookupKey "source-1" ledgerDemoState.entries = some ledgerDemoEntries ∧
    get_entries ledgerDemoState "source-1" none = ledgerDemoEntries ∧
    get_entries ledgerDemoState "source-1" (some 2)
      = ledgerDemoEntries.drop (ledgerDemoEntries.length - 2) := by
  have h := c5_get_entries_suffix ledgerDemoState "source-1" ledgerDemoEntries 2
    (by decide)
  exact ⟨by decide, h.1, h.2.1⟩

/-- C6: watch_file fails with FileNotFound on a path that does not exist,
with NotAFile on an existing path that is not a regular file, and with
AlreadyWatching on an already tracked regular file; each failure returns
the error without producing a new state table (only the `ok` arm carries
one). -/
theorem c6_watch_file_failures (fs : PathC → FsKind)
    (states : List (PathC × FileState)) (p : PathC) :
    (fs p = .missing → watch_file fs states p = .error (.fileNotFound p)) ∧
    (fs p = .notFile → watch_file fs states p = .error (.notAFile p)) ∧
    (∀ content, fs p = .file content → (lookupPath p states).isSome →
      watch_file fs states p = .error (.alreadyWatching p)) := by
  refine ⟨?_, ?_, ?_⟩
  · intro h; unfold watch_file; rw [h]
  · intro h; unfold watch_file; rw [h]
  · intro content h hsome
    unfold watch_file
    rw [h]
    dsimp only
    rw [if_pos hsome]

/-- Witness for C6 at the three demo paths. -/
theorem c6_watch_file_failures_witness :
    watch_file watchDemoFs watchDemoStates ["tmp", "gone.log"]
      = .error (.fileNotFound ["tmp", "gone.log"]) ∧
    watch_file watchDemoFs watchDemoStates ["tmp", "dir"]
      = .error (.notAFile ["tmp", "dir"]) ∧
    watch_file watchDemoFs watchDemoStates ["tmp", "app.log"]
      = .error (.alreadyWatching ["tmp", "app.log"]) :=
  ⟨(c6_watch_file_failures watchDemoFs watchDemoStates _).1 (by decide),
   (c6_watch_file_failures watchDemoFs watchDemoStates _).2.1 (by decide),
   (c6_watch_file_failures watchDemoFs watchDemoStates _).2.2 "x\n".data
     (by decide) (by decide)⟩

/-- Clearing a key absent from a string-keyed table leaves it unchanged. -/
theorem clear_map_id {α : Type} (id : String) : ∀ l : List (String × List α),
    lookupKey id l = none →
    l.map (fun kv => if kv.1 = id then (kv.1, ([] : List α)) else kv) = l := by
  intro l
  induction l with
  | nil => intro _; rfl
  | cons kv rest ih =>
    intro h
    obtain ⟨k, v⟩ := kv
    unfold lookupKey at h
    by_cases hk : k = id
    · rw [if_pos hk] at h; cases h
    · rw [if_neg hk] at h
      simp only [List.map_cons, if_neg hk, ih h]

/-- C8: for a source id not present in the store, query operations never
fail: get_entries returns the empty sequence, get_source returns none, and
clear_entries leaves the state unchanged. -/
theorem c8_missing_source_id (st : LogWatcherState) (id : String)
    (limit : Option Nat)
    (hE : lookupKey id st.entries = none)
    (hS : lookupKey id st.sources = none) :
    get_entries st id limit = [] ∧
    get_source st id = none ∧
    clear_entries st id = st := by
  refine ⟨?_, ?_, ?_⟩
  · unfold get_entries; rw [hE]
  · unfold get_source; exact hS
  · unfold clear_entries
    rw [clear_map_id id st.entries hE]

/-- Witness for C8 at an id absent from the demo ledger. -/
theorem c8_missing_source_id_witness :
    get_entries ledgerDemoState "nope" (some 5) = [] ∧
    get_source ledgerDemoState "nope" = none ∧
    clear_entries ledgerDemoState "nope" = ledgerDemoState :=
  c8_missing_source_id ledgerDemoState "nope" (some 5) (by decide) (by decide)

/-- Dropping from a range shifts its start and shortens it. -/
theorem range'_drop : ∀ (i s n : Nat),
    (List.range' s n).drop i = List.range' (s + i) (n - i) := by
  intro i
  induction i with
  | zero => intro s n; simp
  | succ i ih =>
    intro s n
    cases n with
    | zero => simp
    | succ n =>
      rw [List.range'_succ, List.drop_succ_cons, ih (s + 1) n]
      have h1 : s + 1 + i = s + (i + 1) := by omega
      have h2 : n - i = n + 1 - (i + 1) := by omega
      rw [h1, h2]

/-- The limited read is always a drop of the full numbered line list. -/
theorem read_initial_content_eq_drop (file : Str) (m : Nat) :
    read_initial_content file (some m)
      = ((rustLines file).enum.map (fun p => (p.1 + 1, p.2))).drop
          ((rustLines file).length - m) := by
  simp only [read_initial_content]
  by_cases h : ((rustLines file).enum.map (fun p => (p.1 + 1, p.2))).length > m
  · rw [if_pos h]
    simp
  · rw [if_neg h]
    simp only [List.length_map, List.enum_length] at h
    have : (rustLines file).length - m = 0 := by omega
    rw [this, List.drop_zero]

/-- C9: for a file of `n` lines and a limit of `m` lines,
`read_initial_content` returns the last `min n m` lines of the file, each
paired with its original 1-based line number; in particular the first
returned pair is numbered `n - min n m + 1`. -/
theorem c9_read_initial_last_lines (file : Str) (m : Nat) :
    (read_initial_content file (some m)).length
        = min (rustLines file).length m ∧
    (read_initial_content file (some m)).map (·.1)
        = List.range'
            ((rustLines file).length - min (rustLines file).length m + 1)
            (min (rustLines file).length m) ∧
    (read_initial_content file (some m)).map (·.2)
        = (rustLines file).drop
            ((rustLines file).length - min (rustLines file).length m) := by
  have hnorm := read_initial_content_eq_drop file m
  have hfst : ((rustLines file).enum.map (fun p => (p.1 + 1, p.2))).map (·.1)
      = List.range' 1 (rustLines file).length := by
    rw [List.map_map]
    have hcomp : ((fun p : Nat × Str => p.1) ∘ fun p : Nat × Str => (p.1 + 1, p.2))
        = fun p : Nat × Str => p.1 + 1 := rfl
    rw [hcomp]
    have h2 : (fun i : Nat => i + 1) = fun i : Nat => 1 + i := by
      funext i; omega
    calc List.map (fun p : Nat × Str => p.1 + 1) (rustLines file).enum
        = List.map (fun i => i + 1) (List.range' 0 (rustLines file).length) :=
          enumFrom_map_fst_apply (fun i => i + 1) (rustLines file) 0
      _ = List.range' 1 (rustLines file).length := by
          rw [h2, List.map_add_range']
  have hsnd : ((rustLines file).enum.map (fun p => (p.1 + 1, p.2))).map (·.2)
      = rustLines file := by
    rw [List.map_map]
    have hcomp : ((fun p : Nat × Str => p.2) ∘ fun p : Nat × Str => (p.1 + 1, p.2))
        = Prod.snd := rfl
    rw [hcomp]
    exact List.enumFrom_map_snd 0 (rustLines file)
  refine ⟨?_, ?_, ?_⟩
  · rw [hnorm]
    simp only [List.length_drop, List.length_map, List.enum_length]
    omega
  · rw [hnorm, List.map_drop, hfst, range'_drop]
    have h1 : 1 + ((rustLines file).length - m)
        = (rustLines file).length - min (rustLines file).length m + 1 := by omega
    have h2 : (rustLines file).length - ((rustLines file).length - m)
        = min (rustLines file).length m := by omega
    rw [h1, h2]
  · rw [hnorm, List.map_drop, hsnd]
    have h2 : (rustLines file).length - m
        = (rustLines file).length - min (rustLines file).length m := by omega
    rw [h2]
